import Mathlib

/-! Control-flow flattening pass: embedding of `ControlFlowFlatteningPass::run`.

Source: `llvm/lib/Transforms/Obfuscation/ControlFlowFlatteningPass.cpp`.

The pass mutates an LLVM `Function` in place.  The embedding keeps the function as an
ordered list of basic blocks, each an ordered list of instructions.  Blocks and
instructions carry an address (`Ref`), which stands for the C++ pointer the pass holds
to them, so that "the switch created at line 34" can be told apart from every other
instruction, also after it has been erased.

Operations of the C++ language that have no defined behaviour (using an instruction
after `eraseFromParent`, dereferencing `end()` or a null pointer) are results of type
`Fault`; the function as it stands when the fault is hit is kept next to it.
-/

namespace CFF

/-- Address of an IR object (`BasicBlock*`, `Instruction*`, `Value*`). -/
abbrev Ref := Nat

/-- The instruction kinds the pass can tell apart.  `other` is any instruction that is
neither a PHI node, nor an exception-handling pad, nor a terminator. -/
inductive Opcode where
  | phi
  | ehpad
  | other (tag : Nat)
  | alloca
  | store (val : Nat) (ptr : Ref)
  | load (ptr : Ref)
  | br (dest : Ref)
  | condBr (cond : Nat) (ifTrue ifFalse : Ref)
  | switch (cond : Ref) (dflt : Ref) (numCases : Nat) (cases : List (Nat × Ref))
  | ret
  | unreachable
  deriving DecidableEq, Repr

structure Instruction where
  ref : Ref
  op : Opcode
  deriving DecidableEq, Repr

structure BasicBlock where
  ref : Ref
  insts : List Instruction
  deriving DecidableEq, Repr

structure Function where
  blocks : List BasicBlock
  deriving DecidableEq, Repr

inductive PreservedAnalyses where
  | all
  | none
  deriving DecidableEq, Repr

/-- Operations without defined behaviour that the pass can reach. -/
inductive Fault where
  /-- Dereference of `BB.getFirstInsertionPt()` when the insertion point is `end()`. -/
  | endIteratorDeref (bb : Ref)
  /-- An `IRBuilder` inserts before an instruction that was erased. -/
  | erasedInsertPoint (inst : Ref)
  /-- A member function is called on an instruction that was erased. -/
  | useAfterErase (inst : Ref)
  /-- Call of `SetInsertPoint` on the null pointer returned by `getTerminator`. -/
  | nullTerminator (bb : Ref)
  /-- Call of `getEntryBlock` on a function without blocks. -/
  | noEntryBlock
  deriving DecidableEq, Repr

/-! ## The IR operations the pass calls -/

/-- Modelled from the spec: `Instruction::isTerminator` (LLVM IR library, not under
src/): "a branch, conditional branch, multi-way branch, return, or unreachable
marker". -/
def Opcode.isTerminator : Opcode → Bool
  | .br _ => true
  | .condBr _ _ _ => true
  | .switch _ _ _ _ => true
  | .ret => true
  | .unreachable => true
  | _ => false

def Opcode.isPhi : Opcode → Bool
  | .phi => true
  | _ => false

def Opcode.isEHPad : Opcode → Bool
  | .ehpad => true
  | _ => false

/-- Modelled from the spec: the blocks an instruction can transfer control to
(`Instruction::getSuccessor`, LLVM IR library, not under src/). -/
def Opcode.targets : Opcode → List Ref
  | .br d => [d]
  | .condBr _ t f => [t, f]
  | .switch _ d _ cs => d :: cs.map Prod.snd
  | _ => []

/-- The number of blocks, `F.size()`. -/
def Function.size (F : Function) : Nat := F.blocks.length

/-- The block with address `r`. -/
def Function.block? (F : Function) (r : Ref) : Option BasicBlock :=
  F.blocks.find? (fun b => b.ref == r)

/-- Modelled from the spec: `BasicBlock::getTerminator` (LLVM IR library, not under
src/): the last instruction of the block when it is a terminator, null otherwise
("it must be the last instruction in the Block"). -/
def BasicBlock.getTerminator (b : BasicBlock) : Option Instruction :=
  match b.insts.getLast? with
  | some i => if i.op.isTerminator then some i else none
  | none => none

/-- Modelled from the spec: `BasicBlock::getFirstInsertionPt` (LLVM IR library, not under
src/): the first instruction "after any instructions that must stay at block-head, such
as incoming-value merge points"; `none` is `end()`. -/
def BasicBlock.getFirstInsertionPt (b : BasicBlock) : Option Instruction :=
  match b.insts.dropWhile (fun i => i.op.isPhi) with
  | [] => none
  | i :: rest => if i.op.isEHPad then rest.head? else some i

/-- The successors of a block are those of its terminator; a block whose last
instruction is not a terminator has none. -/
def BasicBlock.successors (b : BasicBlock) : List Ref :=
  match b.getTerminator with
  | some t => t.op.targets
  | none => []

/-- Every control-transfer instruction of a block, wherever it stands. -/
def BasicBlock.controlTransfers (b : BasicBlock) : List Instruction :=
  b.insts.filter (fun i => i.op.isTerminator)

/-- The largest address in use by a block or an instruction of `F`. -/
def Function.maxRef (F : Function) : Ref :=
  (F.blocks.map (fun b => max b.ref ((b.insts.map Instruction.ref).foldr max 0))).foldr max 0

/-- State of the pass: the function being mutated, the instructions erased so far and
the next address the allocator hands out. -/
structure PassState where
  F : Function
  erased : List Ref
  next : Ref
  deriving DecidableEq, Repr

/-- Insertion point of an `IRBuilder`: the end of a block (`IRBuilder<> b(BB)`), or in front
of an instruction (`IRBuilder<> b(I)`, `SetInsertPoint(I)`). -/
inductive InsertPoint where
  | atEnd (bb : Ref)
  | before (bb : Ref) (inst : Ref)
  deriving DecidableEq, Repr

/-- Put `new` in front of the instruction with address `at`. -/
def insertBeforeInst (new : Instruction) (at_ : Ref) : List Instruction → List Instruction
  | [] => []
  | i :: rest => if i.ref = at_ then new :: i :: rest else i :: insertBeforeInst new at_ rest

/-- Apply `f` to the block with address `bb`. -/
def Function.modifyBlock (F : Function) (bb : Ref) (f : BasicBlock → BasicBlock) : Function :=
  ⟨F.blocks.map (fun b => if b.ref = bb then f b else b)⟩

/-- Modelled from the spec: `IRBuilder::Insert` (LLVM IR library, not under src/): creates
the instruction at a fresh address and links it at the insertion point.  Returns the new
state and the address of the new instruction. -/
def PassState.create (st : PassState) (ip : InsertPoint) (op : Opcode) :
    Except (Fault × PassState) (PassState × Ref) :=
  match ip with
  | .atEnd bb =>
    .ok ({ st with F := st.F.modifyBlock bb (fun b => { b with insts := b.insts ++ [⟨st.next, op⟩] }),
                   next := st.next + 1 }, st.next)
  | .before bb i =>
    if i ∈ st.erased then .error (.erasedInsertPoint i, st)
    else
      .ok ({ st with F := st.F.modifyBlock bb
                      (fun b => { b with insts := insertBeforeInst ⟨st.next, op⟩ i b.insts }),
                     next := st.next + 1 }, st.next)

/-- Modelled from the spec: `Instruction::eraseFromParent` (LLVM IR library, not under
src/): unlinks the instruction from its block and deletes it. -/
def PassState.eraseFromParent (st : PassState) (i : Ref) : PassState :=
  { st with F := ⟨st.F.blocks.map (fun b => { b with insts := b.insts.filter (fun j => j.ref != i) })⟩,
            erased := i :: st.erased }

def Opcode.addCase (v : Nat) (dest : Ref) : Opcode → Opcode
  | .switch c d n cs => .switch c d n (cs ++ [(v, dest)])
  | op => op

/-- Modelled from the spec: `SwitchInst::addCase` (LLVM IR library, not under src/), called
through the pointer `sw`: "register the pair (id, B) as a case in the Dispatcher's
multi-way branch". -/
def PassState.addCase (st : PassState) (sw : Ref) (v : Nat) (dest : Ref) :
    Except (Fault × PassState) PassState :=
  if sw ∈ st.erased then .error (.useAfterErase sw, st)
  else
    .ok { st with F := ⟨st.F.blocks.map (fun b =>
            { b with insts := b.insts.map (fun j => if j.ref = sw then ⟨j.ref, j.op.addCase v dest⟩ else j) })⟩ }

/-- Modelled from the spec: `BasicBlock::Create(Ctx, Name, &F, InsertBefore)` (LLVM IR
library, not under src/): links the new, empty block in front of `before`. -/
def insertBlockBefore (new : BasicBlock) (before : Ref) : List BasicBlock → List BasicBlock
  | [] => [new]
  | b :: rest => if b.ref = before then new :: b :: rest else b :: insertBlockBefore new before rest

def insertBlockAfter (new : BasicBlock) (after : Ref) : List BasicBlock → List BasicBlock
  | [] => []
  | b :: rest => if b.ref = after then b :: new :: rest else b :: insertBlockAfter new after rest

/-- Modelled from the spec: `BasicBlock::moveAfter` (LLVM IR library, not under src/):
unlinks the block and links it again right behind `after`; a block moved behind itself
stays where it is. -/
def Function.moveAfter (F : Function) (bb after : Ref) : Function :=
  if bb = after then F
  else
    match F.block? bb with
    | some b => ⟨insertBlockAfter b after (F.blocks.filter (fun x => x.ref != bb))⟩
    | none => F

/-! ## `std::map<BasicBlock*, int>` -/

/-- The map `BlockMap`, as its list of (key, value) pairs. -/
abbrev BlockMap := List (Ref × Nat)

/-- Modelled from the spec: assignment `M[k] = v` of `std::map` (C++ standard library,
not under src/): the value of an existing key is replaced, a new key is added. -/
def BlockMap.set : BlockMap → Ref → Nat → BlockMap
  | [], k, v => [(k, v)]
  | (k1, v1) :: rest, k, v => if k1 = k then (k, v) :: rest else (k1, v1) :: BlockMap.set rest k v

/-- Modelled from the spec: read of `M[k]` of `std::map` (C++ standard library, not under
src/): the stored value, or the value-initialised `0` for a key that is absent. -/
def BlockMap.get : BlockMap → Ref → Nat
  | [], _ => 0
  | (k1, v1) :: rest, k => if k1 = k then v1 else BlockMap.get rest k

/-! ## The pass -/

/-- Lines 37-43: the loop that fills `BlockMap`, over the blocks of `F` in order.
`CaseValue` is a C++ `int`; it stays below `2^31` on every function with fewer than
`2^31 - 1` blocks, so it is kept as a natural number. -/
def buildBlockMap (EntryBlock : Ref) : List BasicBlock → BlockMap → Nat → BlockMap × Nat
  | [], m, CaseValue => (m, CaseValue)
  | BB :: rest, m, CaseValue =>
    if BB.ref ≠ EntryBlock then buildBlockMap EntryBlock rest (m.set BB.ref CaseValue) (CaseValue + 1)
    else buildBlockMap EntryBlock rest m CaseValue

/-- What the pass holds in local variables once line 43 is reached. -/
structure Locals where
  EntryBlock : Ref
  NewEntry : Ref
  SwitchVar : Ref
  SwitchVarLoad : Ref
  Switch : Ref
  BlockMap : BlockMap
  deriving DecidableEq, Repr

/-- Lines 21-43: creation of `NewEntry` in front of the entry block, its four
instructions, and `BlockMap`. -/
def setup (F : Function) (entry : BasicBlock) : Except (Fault × PassState) (PassState × Locals) := do
  let EntryBlock := entry.ref                                              -- line 23
  let NewEntry := F.maxRef + 1                                             -- line 24
  let st : PassState :=
    { F := ⟨insertBlockBefore ⟨NewEntry, []⟩ EntryBlock F.blocks⟩, erased := [], next := NewEntry + 1 }
  let builder := InsertPoint.atEnd NewEntry                                -- line 25
  let (st, SwitchVar) ← st.create builder .alloca                          -- line 29
  let (st, _) ← st.create builder (.store 0 SwitchVar)                     -- line 30
  let (st, SwitchVarLoad) ← st.create builder (.load SwitchVar)            -- line 33
  let (st, Switch) ← st.create builder (.switch SwitchVarLoad EntryBlock st.F.size [])  -- line 34
  let BlockMap := (buildBlockMap EntryBlock st.F.blocks [] 1).1            -- lines 37-43
  return (st, ⟨EntryBlock, NewEntry, SwitchVar, SwitchVarLoad, Switch, BlockMap⟩)

/-- Lines 47-60: the body of the rewrite loop, for the block `BB`. -/
def rewriteBlock (L : Locals) (st : PassState) (BB : Ref) : Except (Fault × PassState) PassState :=
  if BB = L.EntryBlock then .ok st                                         -- line 47
  else
    match (st.F.block? BB).bind BasicBlock.getFirstInsertionPt with        -- line 49
    | none => .error (.endIteratorDeref BB, st)
    | some ip => do
      let bbBuilder := InsertPoint.before BB ip.ref
      let (st, _) ← st.create bbBuilder (.store (L.BlockMap.get BB) L.SwitchVar)  -- line 50
      let st :=                                                            -- lines 53-56
        match (st.F.block? BB).bind BasicBlock.getTerminator with
        | some terminator => st.eraseFromParent terminator.ref
        | none => st
      let (st, _) ← st.create bbBuilder (.br L.NewEntry)                   -- line 57
      st.addCase L.Switch (L.BlockMap.get BB) BB                           -- line 60

/-- Lines 46-61: the rewrite loop over the blocks of `F`, in order. -/
def rewriteLoop (L : Locals) : List Ref → PassState → Except (Fault × PassState) PassState
  | [], st => .ok st
  | BB :: rest, st => do
    let st ← rewriteBlock L st BB
    rewriteLoop L rest st

/-- Lines 63-67: the entry block is moved behind `NewEntry` and a branch to it is put in
front of the terminator of `NewEntry`. -/
def finish (L : Locals) (st : PassState) : Except (Fault × PassState) PassState := do
  let st := { st with F := st.F.moveAfter L.EntryBlock L.NewEntry }        -- line 64
  match (st.F.block? L.NewEntry).bind BasicBlock.getTerminator with        -- line 66
  | none => .error (.nullTerminator L.NewEntry, st)
  | some t => do
    let (st, _) ← st.create (.before L.NewEntry t.ref) (.br L.EntryBlock)  -- line 67
    return st

/-- Lines 21-67. -/
def flattenBody (F : Function) : Except (Fault × PassState) PassState :=
  match F.blocks.head? with
  | none => .error (.noEntryBlock, ⟨F, [], F.maxRef + 1⟩)
  | some entry => do
    let (st, L) ← setup F entry
    let st ← rewriteLoop L (st.F.blocks.map BasicBlock.ref) st
    finish L st

/-- What a call of the pass leaves behind: the function, and either the value returned
or the fault that ended the call. -/
structure RunResult where
  F : Function
  result : Except Fault PreservedAnalyses

/-- The pass, `ControlFlowFlatteningPass::run`: lines 15-70. -/
def run (F : Function) : RunResult :=
  if F.size < 2 then ⟨F, .ok .all⟩                                         -- lines 17-19
  else
    match flattenBody F with
    | .ok st => ⟨st.F, .ok .none⟩                                          -- line 69
    | .error (fault, st) => ⟨st.F, .error fault⟩

/-! ## Execution of a function

A small interpreter for the instructions above, used to say which blocks an execution
visits.  The value of a branch condition comes from the input `env`. -/

/-- Memory of an execution: the cells allocated so far, their contents, and the values
loaded so far. -/
structure Machine where
  cells : List Ref
  vals : List (Ref × Nat)
  regs : List (Ref × Nat)
  deriving DecidableEq, Repr

/-- How the execution of a block ends. -/
inductive Next where
  | goto (bb : Ref)
  | halt
  | stuck
  deriving DecidableEq, Repr

/-- Modelled from the spec: execution of the instructions of a block (semantics of the
IR, not under src/), up to the first control transfer.  A store to a cell that is not
allocated, a load of a cell that holds no value, and a block that ends without a
control transfer have no defined continuation (`stuck`). -/
def execInsts (env : Nat → Bool) : List Instruction → Machine → Machine × Next
  | [], m => (m, .stuck)
  | i :: rest, m =>
    match i.op with
    | .phi => execInsts env rest m
    | .ehpad => execInsts env rest m
    | .other _ => execInsts env rest m
    | .alloca =>
      execInsts env rest { m with cells := i.ref :: m.cells, vals := m.vals.filter (fun c => c.1 != i.ref) }
    | .store v p =>
      if p ∈ m.cells then execInsts env rest { m with vals := (p, v) :: m.vals.filter (fun c => c.1 != p) }
      else (m, .stuck)
    | .load p =>
      match m.vals.lookup p with
      | some v => execInsts env rest { m with regs := (i.ref, v) :: m.regs.filter (fun c => c.1 != i.ref) }
      | none => (m, .stuck)
    | .br d => (m, .goto d)
    | .condBr c t f => (m, .goto (if env c then t else f))
    | .switch c d _ cs =>
      match m.regs.lookup c with
      | some v => (m, .goto ((cs.lookup v).getD d))
      | none => (m, .stuck)
    | .ret => (m, .halt)
    | .unreachable => (m, .stuck)

/-- The blocks visited, in order, by at most `fuel` block executions starting at `bb`. -/
def exec (G : Function) (env : Nat → Bool) : Nat → Ref → Machine → List Ref
  | 0, _, _ => []
  | fuel + 1, bb, m =>
    match G.block? bb with
    | none => []
    | some b =>
      bb :: (match execInsts env b.insts m with
              | (m1, .goto d) => exec G env fuel d m1
              | _ => [])

/-- The blocks visited by an execution of `G` from its entry (its first block). -/
def trace (G : Function) (env : Nat → Bool) (fuel : Nat) : List Ref :=
  match G.blocks.head? with
  | some e => exec G env fuel e.ref ⟨[], [], []⟩
  | none => []

/-! ## Sample functions -/

/-- A function with a single block. -/
def F1 : Function :=
  ⟨[⟨10, [⟨11, .other 0⟩, ⟨12, .ret⟩]⟩]⟩

/-- The function `[Entry, B1]`: `Entry` branches to `B1`, which returns. -/
def F2 : Function :=
  ⟨[⟨10, [⟨11, .br 20⟩]⟩,
    ⟨20, [⟨21, .other 1⟩, ⟨22, .ret⟩]⟩]⟩

/-- The function `[Entry, B1, B2]`: `Entry` branches conditionally to `B1` or `B2`; `B1` branches to
`B2`, which returns. -/
def F3 : Function :=
  ⟨[⟨10, [⟨11, .other 0⟩, ⟨12, .condBr 11 20 30⟩]⟩,
    ⟨20, [⟨21, .other 1⟩, ⟨22, .br 30⟩]⟩,
    ⟨30, [⟨31, .other 2⟩, ⟨32, .ret⟩]⟩]⟩

/-- The block `NewEntry` as the pass leaves it: the state store and the branch of the
rewrite loop in front of the allocation, and no switch. -/
def rewrittenNewEntry (F : Function) : BasicBlock :=
  ⟨F.maxRef + 1,
   [⟨F.maxRef + 6, .store 1 (F.maxRef + 2)⟩, ⟨F.maxRef + 7, .br (F.maxRef + 1)⟩,
    ⟨F.maxRef + 2, .alloca⟩, ⟨F.maxRef + 3, .store 0 (F.maxRef + 2)⟩,
    ⟨F.maxRef + 4, .load (F.maxRef + 2)⟩]⟩

/-- The block `NewEntry` as lines 24-34 build it: allocation, store of 0, load, and the
switch with default target `EntryBlock` and no case yet. -/
def synthesizedNewEntry (F : Function) (EntryBlock : Ref) : BasicBlock :=
  ⟨F.maxRef + 1,
   [⟨F.maxRef + 2, .alloca⟩, ⟨F.maxRef + 3, .store 0 (F.maxRef + 2)⟩,
    ⟨F.maxRef + 4, .load (F.maxRef + 2)⟩,
    ⟨F.maxRef + 5, .switch (F.maxRef + 4) EntryBlock (F.size + 1) []⟩]⟩

/-- The `BlockMap` the pass builds for `F` (its value when line 43 is reached). -/
def blockMapOf (F : Function) : Option BlockMap :=
  match F.blocks.head? with
  | none => none
  | some entry =>
    match setup F entry with
    | .ok (_, L) => some L.BlockMap
    | .error _ => none

/-- The state and the local variables of the pass when line 43 is reached. -/
def afterSetup (F : Function) : Option (PassState × Locals) :=
  match F.blocks.head? with
  | none => none
  | some entry =>
    match setup F entry with
    | .ok p => some p
    | .error _ => none

/-! ## Well-formed input and the properties read off a flattened function -/

/-- A block is well formed when PHI nodes stand at its head only, it holds exactly one
control-transfer instruction, and that instruction is its last. -/
def BasicBlock.wellFormed (b : BasicBlock) : Bool :=
  (b.insts.dropWhile (fun i => i.op.isPhi)).all (fun i => !i.op.isPhi)
    && b.getTerminator.isSome && b.controlTransfers.length == 1

/-- A function is well formed when its blocks are, no address is used twice, every
branch target is a block of the function, and no branch targets the entry block. -/
def Function.wellFormed (F : Function) : Bool :=
  F.blocks.all BasicBlock.wellFormed
    && decide ((F.blocks.map BasicBlock.ref ++
          (F.blocks.map (fun b => b.insts.map Instruction.ref)).flatten).Nodup)
    && F.blocks.all (fun b => b.insts.all (fun i => i.op.targets.all (fun t =>
          (F.blocks.map BasicBlock.ref).contains t && some t != F.blocks.head?.map BasicBlock.ref)))

/-- No control-transfer instruction of a block of `G` that is an original block (a
block of `F`) has a target other than `dispatcher`. -/
def noDirectEdges (F G : Function) (dispatcher : Ref) : Bool :=
  G.blocks.all (fun b =>
    !(F.blocks.map BasicBlock.ref).contains b.ref
      || b.controlTransfers.all (fun i => i.op.targets.all (fun t => t == dispatcher)))

/-! ## Further sample functions and readings -/

/-- The function `[Entry, B1, B2]` with a PHI node at the head of `B1` and of `B2`. -/
def F3phi : Function :=
  ⟨[⟨10, [⟨11, .other 0⟩, ⟨12, .condBr 11 20 30⟩]⟩,
    ⟨20, [⟨21, .phi⟩, ⟨22, .other 1⟩, ⟨23, .br 30⟩]⟩,
    ⟨30, [⟨31, .phi⟩, ⟨32, .other 2⟩, ⟨33, .ret⟩]⟩]⟩

/-- The function `[Entry, B1]` in which `B1` is a lone `ret`. -/
def F2ret : Function :=
  ⟨[⟨10, [⟨11, .br 20⟩]⟩,
    ⟨20, [⟨21, .ret⟩]⟩]⟩

/-- The function `[Entry, B1]` in which `B1` has no terminator. -/
def F2bad : Function :=
  ⟨[⟨10, [⟨11, .br 20⟩]⟩,
    ⟨20, [⟨21, .other 1⟩]⟩]⟩

def Opcode.isStore : Opcode → Bool
  | .store _ _ => true
  | _ => false

/-- The fault that ends lines 21-67 on `F`, with the state of the pass when it is hit. -/
def faultState (F : Function) : Option (Fault × PassState) :=
  match flattenBody F with
  | .ok _ => none
  | .error p => some p

/-- The fault a stage of the pass ends in, if it does. -/
def faultOf {α : Type} : Except (Fault × PassState) α → Option Fault
  | .ok _ => none
  | .error p => some p.1

/-- Every target of every control-transfer instruction of a block. -/
def BasicBlock.edges (b : BasicBlock) : List Ref :=
  (b.controlTransfers.map (fun i => i.op.targets)).flatten

/-- The state a stage of the pass ends in, whether it completes or ends in a fault. -/
def endState : Except (Fault × PassState) PassState → PassState
  | .ok st => st
  | .error p => p.2

/-- The entry block is `e`, and the rewrite of a block at another address cannot reach
its instructions: their addresses lie below the next fresh one, differ from that of the
switch, and are shared with no instruction of a block at another address. -/
def EntryKept (L : Locals) (e : BasicBlock) (st : PassState) : Prop :=
  st.F.block? L.EntryBlock = some e ∧
    (∀ j ∈ e.insts, j.ref < st.next ∧ j.ref ≠ L.Switch) ∧
    (∀ b ∈ st.F.blocks, b.ref ≠ L.EntryBlock → ∀ i ∈ b.insts, ∀ j ∈ e.insts, i.ref ≠ j.ref)

deriving instance DecidableEq for Except

instance : DecidableEq RunResult := fun a b =>
  decidable_of_iff (a.F = b.F ∧ a.result = b.result)
    (by cases a; cases b; simp)

/-! ## Addresses in use lie below the fresh ones -/

theorem le_foldr_max_of_mem (l : List Nat) (x : Nat) (h : x ∈ l) : x ≤ l.foldr max 0 := by
  induction l with
  | nil => cases h
  | cons a t ih =>
    simp only [List.foldr_cons]
    rcases List.mem_cons.mp h with rfl | h
    · exact le_max_left _ _
    · exact le_trans (ih h) (le_max_right _ _)

theorem blockRef_le_maxRef (F : Function) (b : BasicBlock) (hb : b ∈ F.blocks) :
    b.ref ≤ F.maxRef := by
  refine le_trans (le_max_left b.ref ((b.insts.map Instruction.ref).foldr max 0)) ?_
  exact le_foldr_max_of_mem _ _ (List.mem_map.mpr ⟨b, hb, rfl⟩)

theorem instRef_le_maxRef (F : Function) (b : BasicBlock) (hb : b ∈ F.blocks)
    (i : Instruction) (hi : i ∈ b.insts) : i.ref ≤ F.maxRef := by
  refine le_trans (le_foldr_max_of_mem _ _ (List.mem_map.mpr ⟨i, hi, rfl⟩)) ?_
  refine le_trans (le_max_right b.ref ((b.insts.map Instruction.ref).foldr max 0)) ?_
  exact le_foldr_max_of_mem _ _ (List.mem_map.mpr ⟨b, hb, rfl⟩)

theorem map_modify_of_fresh (l : List BasicBlock) (k : Ref) (f : BasicBlock → BasicBlock)
    (h : ∀ b ∈ l, b.ref ≠ k) : l.map (fun b => if b.ref = k then f b else b) = l := by
  induction l with
  | nil => rfl
  | cons a t ih =>
    have ha : a.ref ≠ k := h a (List.mem_cons_self _ _)
    simp only [List.map_cons, if_neg ha]
    rw [ih (fun b hb => h b (List.mem_cons_of_mem _ hb))]

theorem filter_insts_of_fresh (l : List Instruction) (k : Ref) (h : ∀ i ∈ l, i.ref ≠ k) :
    l.filter (fun j => j.ref != k) = l := by
  rw [List.filter_eq_self]
  intro i hi
  simpa using h i hi

theorem map_erase_of_fresh (l : List BasicBlock) (k : Ref)
    (h : ∀ b ∈ l, ∀ i ∈ b.insts, i.ref ≠ k) :
    l.map (fun b => ({ b with insts := b.insts.filter (fun j => j.ref != k) } : BasicBlock)) = l := by
  induction l with
  | nil => rfl
  | cons a t ih =>
    simp only [List.map_cons]
    rw [ih (fun b hb => h b (List.mem_cons_of_mem _ hb)),
      filter_insts_of_fresh a.insts k (h a (List.mem_cons_self _ _))]

/-! ## `BlockMap` -/

theorem BlockMap.get_set_of_ne (m : BlockMap) (k k1 : Ref) (v : Nat) (h : k1 ≠ k) :
    (m.set k1 v).get k = m.get k := by
  induction m with
  | nil => simp [BlockMap.set, BlockMap.get, h]
  | cons p t ih =>
    obtain ⟨a, b⟩ := p
    by_cases ha : a = k1
    · subst ha
      simp [BlockMap.set, BlockMap.get, h]
    · by_cases hk : a = k
      · subst hk
        simp [BlockMap.set, BlockMap.get, ha]
      · simp [BlockMap.set, BlockMap.get, ha, hk, ih]

theorem buildBlockMap_get_of_fresh (E k : Ref) (l : List BasicBlock) (m : BlockMap) (c : Nat)
    (h : ∀ b ∈ l, b.ref ≠ k) : (buildBlockMap E l m c).1.get k = m.get k := by
  induction l generalizing m c with
  | nil => rfl
  | cons a t ih =>
    have ha : a.ref ≠ k := h a (List.mem_cons_self _ _)
    have ht : ∀ b ∈ t, b.ref ≠ k := fun b hb => h b (List.mem_cons_of_mem _ hb)
    by_cases hE : a.ref = E
    · simp only [buildBlockMap, hE, ne_eq, not_true_eq_false, if_false]
      exact ih m c ht
    · simp only [buildBlockMap, ne_eq, hE, not_false_eq_true, if_true]
      rw [ih _ _ ht, BlockMap.get_set_of_ne m k a.ref c ha]

theorem BlockMap.set_of_not_mem (m : BlockMap) (k : Ref) (v : Nat)
    (h : k ∉ m.map Prod.fst) : m.set k v = m ++ [(k, v)] := by
  induction m with
  | nil => rfl
  | cons p t ih =>
    obtain ⟨a, b⟩ := p
    have ha : a ≠ k := fun hh => h (by simp [hh])
    have ht : k ∉ t.map Prod.fst := fun hh => h (by simp [hh])
    simp [BlockMap.set, ha, ih ht]

/-- On blocks with distinct addresses, none of them the entry block and none of them a key
yet, the loop of lines 39-43 appends the blocks in order, with consecutive values. -/
theorem buildBlockMap_eq (E : Ref) (l : List BasicBlock) (m : BlockMap) (c : Nat)
    (hE : ∀ b ∈ l, b.ref ≠ E) (hnd : (l.map BasicBlock.ref).Nodup)
    (hm : ∀ b ∈ l, b.ref ∉ m.map Prod.fst) :
    (buildBlockMap E l m c).1 = m ++ (l.map BasicBlock.ref).zip (List.range' c l.length) := by
  induction l generalizing m c with
  | nil => simp [buildBlockMap]
  | cons a t ih =>
    have haE : a.ref ≠ E := hE a (List.mem_cons_self _ _)
    have hnd2 : a.ref ∉ t.map BasicBlock.ref ∧ (t.map BasicBlock.ref).Nodup :=
      List.nodup_cons.mp hnd
    have hset := BlockMap.set_of_not_mem m a.ref c (hm a (List.mem_cons_self _ _))
    simp only [buildBlockMap, ne_eq, haE, not_false_eq_true, if_true, hset]
    rw [ih (m ++ [(a.ref, c)]) (c + 1) (fun b hb => hE b (List.mem_cons_of_mem _ hb)) hnd2.2]
    · simp [List.range'_succ]
    · intro b hb hmem
      simp only [List.map_append, List.map_cons, List.map_nil, List.mem_append,
        List.mem_singleton] at hmem
      rcases hmem with hmem | hmem
      · exact hm b (List.mem_cons_of_mem _ hb) hmem
      · exact hnd2.1 (hmem ▸ List.mem_map.mpr ⟨b, hb, rfl⟩)

/-! ## What the pass does on every function with an entry block -/

theorem blocks_ref_ne_fresh (F : Function) (n : Nat) :
    ∀ b ∈ F.blocks, b.ref ≠ F.maxRef + (n + 1) := by
  intro b hb
  exact Nat.ne_of_lt (Nat.lt_of_le_of_lt (blockRef_le_maxRef F b hb)
    (Nat.lt_add_of_pos_right (Nat.succ_pos n)))

theorem insts_ref_ne_fresh (F : Function) (n : Nat) :
    ∀ b ∈ F.blocks, ∀ i ∈ b.insts, i.ref ≠ F.maxRef + (n + 1) := by
  intro b hb i hi
  exact Nat.ne_of_lt (Nat.lt_of_le_of_lt (instRef_le_maxRef F b hb i hi)
    (Nat.lt_add_of_pos_right (Nat.succ_pos n)))

/-- Lines 21-43 on a function whose first block is `e`: `NewEntry` is put in front of
the blocks of `F`, and it is the first block the loop of lines 39-43 gives a case value
to. -/
theorem setup_eq (F : Function) (e : BasicBlock) (r : List BasicBlock) (h : F.blocks = e :: r) :
    setup F e = .ok
      (⟨⟨synthesizedNewEntry F e.ref :: F.blocks⟩, [], F.maxRef + 6⟩,
       ⟨e.ref, F.maxRef + 1, F.maxRef + 2, F.maxRef + 4, F.maxRef + 5,
        (buildBlockMap e.ref r [(F.maxRef + 1, 1)] 2).1⟩) := by
  have hfresh := map_modify_of_fresh F.blocks (F.maxRef + 1)
  have hne := blocks_ref_ne_fresh F 0
  have he : e.ref ≠ F.maxRef + 1 := hne e (by rw [h]; exact List.mem_cons_self _ _)
  simp only [h] at hfresh hne
  simp [setup, PassState.create, Function.modifyBlock, insertBlockBefore, h, bind, Except.bind,
    pure, Except.pure, Function.size, synthesizedNewEntry, buildBlockMap, BlockMap.set, he,
    he.symm, hfresh _ hne]

/-- On every function whose blocks `[Entry, B1, ..., Bk]` have distinct addresses, `BlockMap`
is `NewEntry : 1, B1 : 2, ..., Bk : k + 1`. -/
theorem blockMapOf_eq (F : Function) (e : BasicBlock) (r : List BasicBlock)
    (h : F.blocks = e :: r) (hnd : (F.blocks.map BasicBlock.ref).Nodup) :
    blockMapOf F =
      some ((F.maxRef + 1, 1) :: (r.map BasicBlock.ref).zip (List.range' 2 r.length)) := by
  have hne := blocks_ref_ne_fresh F 0
  rw [h] at hnd hne
  have hnd2 : e.ref ∉ r.map BasicBlock.ref ∧ (r.map BasicBlock.ref).Nodup :=
    List.nodup_cons.mp hnd
  have hb := buildBlockMap_eq e.ref r [(F.maxRef + 1, 1)] 2
    (fun b hb hh => hnd2.1 (hh ▸ List.mem_map.mpr ⟨b, hb, rfl⟩)) hnd2.2
    (fun b hb => by simpa using hne b (List.mem_cons_of_mem _ hb))
  simp only [blockMapOf, h, List.head?_cons, setup_eq F e r h, hb]
  rfl

/-- The first iteration of the rewrite loop is on `NewEntry` itself: the state store and
the branch go in front of its allocation, its terminator (the switch) is erased, and the
`addCase` of line 60 is then called on the erased switch. -/
theorem rewriteBlock_newEntry (F : Function) (e : BasicBlock) (r : List BasicBlock)
    (h : F.blocks = e :: r) :
    rewriteBlock
        ⟨e.ref, F.maxRef + 1, F.maxRef + 2, F.maxRef + 4, F.maxRef + 5,
          (buildBlockMap e.ref r [(F.maxRef + 1, 1)] 2).1⟩
        ⟨⟨synthesizedNewEntry F e.ref :: F.blocks⟩, [], F.maxRef + 6⟩ (F.maxRef + 1)
      = .error (.useAfterErase (F.maxRef + 5),
          ⟨⟨rewrittenNewEntry F :: F.blocks⟩, [F.maxRef + 5], F.maxRef + 8⟩) := by
  have hmod := map_modify_of_fresh F.blocks (F.maxRef + 1)
  have hne := blocks_ref_ne_fresh F 0
  have hera := map_erase_of_fresh F.blocks (F.maxRef + 5) (insts_ref_ne_fresh F 4)
  have he : e.ref ≠ F.maxRef + 1 := hne e (by rw [h]; exact List.mem_cons_self _ _)
  have hget : (buildBlockMap e.ref r [(F.maxRef + 1, 1)] 2).1.get (F.maxRef + 1) = 1 := by
    rw [buildBlockMap_get_of_fresh]
    · simp [BlockMap.get]
    · intro b hb
      exact hne b (by rw [h]; exact List.mem_cons_of_mem _ hb)
  simp only [h] at hmod hne hera
  simp [rewriteBlock, PassState.create, PassState.eraseFromParent, PassState.addCase,
    Function.modifyBlock, Function.block?, BasicBlock.getFirstInsertionPt,
    BasicBlock.getTerminator, insertBeforeInst, synthesizedNewEntry, rewrittenNewEntry,
    Opcode.isPhi, Opcode.isEHPad, Opcode.isTerminator, h, bind, Except.bind, he.symm,
    hget, hmod _ hne, hera]

/-- On every function with an entry block, lines 21-67 end in the use of the erased switch
at line 60, in the first iteration of the rewrite loop; the only block changed by then
is `NewEntry`. -/
theorem flattenBody_eq (F : Function) (e : BasicBlock) (r : List BasicBlock)
    (h : F.blocks = e :: r) :
    flattenBody F = .error (.useAfterErase (F.maxRef + 5),
      ⟨⟨rewrittenNewEntry F :: F.blocks⟩, [F.maxRef + 5], F.maxRef + 8⟩) := by
  have h1 := setup_eq F e r h
  have h2 := rewriteBlock_newEntry F e r h
  simp only [flattenBody, h, List.head?_cons, h1, bind, Except.bind, List.map_cons, rewriteLoop,
    synthesizedNewEntry] at h2 ⊢
  rw [h2]

/-- On every function with two or more blocks, `run` ends in the use of the erased
switch, and leaves the rewritten `NewEntry` in front of the untouched blocks of `F`. -/
theorem run_eq_of_two_le (F : Function) (h : 2 ≤ F.size) :
    run F = ⟨⟨rewrittenNewEntry F :: F.blocks⟩, .error (.useAfterErase (F.maxRef + 5))⟩ := by
  have hlt : ¬ F.size < 2 := Nat.not_lt.mpr h
  match hb : F.blocks with
  | [] => simp [Function.size, hb] at h
  | e :: r =>
    have := flattenBody_eq F e r hb
    simp only [run, hlt, if_false, this, hb]

theorem run_eq_of_size_lt_two (F : Function) (h : F.size < 2) : run F = ⟨F, .ok .all⟩ := by
  simp [run, h]

/-- The function `run` leaves behind on two or more blocks cannot be executed past its
first instruction: the state store in front of the allocation has no cell to write to. -/
theorem trace_run_of_two_le (F : Function) (h : 2 ≤ F.size) (env : Nat → Bool) (fuel : Nat) :
    trace (run F).F env (fuel + 1) = [F.maxRef + 1] := by
  rw [run_eq_of_two_le F h]
  simp [trace, exec, Function.block?, rewrittenNewEntry, execInsts]

theorem trace_zero (G : Function) (env : Nat → Bool) : trace G env 0 = [] := by
  unfold trace
  cases G.blocks.head? <;> rfl

/-! ## The claims -/

/-- C1: the function `[Entry, B1]` is well formed and has two blocks, yet `run` does not
report "changed" on it: the call ends at line 60, in the first iteration of the rewrite
loop, with `addCase` called on the switch that line 55 has just erased. -/
theorem run_F2_ends_in_fault :
    F2.wellFormed = true ∧ F2.size = 2 ∧ (run F2).result = .error (.useAfterErase 27) ∧
      (run F2).result ≠ .ok .none := by
  decide

/-- C2: on a function with fewer than two blocks `run` returns "all analyses preserved"
and leaves the function exactly as it was, and so does every further application: after
any number `n` of applications the function is still `F`, and the next one reports
"unchanged" again. -/
theorem run_below_threshold_is_identity (F : Function) (h : F.size < 2) :
    run F = ⟨F, .ok .all⟩ ∧
      ∀ n : Nat, (fun G => (run G).F)^[n] F = F ∧
        (run ((fun G => (run G).F)^[n] F)).result = .ok .all := by
  have hrun := run_eq_of_size_lt_two F h
  have hiter : ∀ n : Nat, (fun G => (run G).F)^[n] F = F := by
    intro n
    induction n with
    | zero => rfl
    | succ k ih => rw [Function.iterate_succ_apply, hrun]; exact ih
  refine ⟨hrun, fun n => ⟨hiter n, ?_⟩⟩
  rw [hiter n, hrun]

theorem run_below_threshold_is_identity_witness :
    F1.size < 2 ∧ (run F1 = ⟨F1, .ok .all⟩ ∧
      ∀ n : Nat, (fun G => (run G).F)^[n] F1 = F1 ∧
        (run ((fun G => (run G).F)^[n] F1)).result = .ok .all) :=
  ⟨by decide, run_below_threshold_is_identity F1 (by decide)⟩

/-- C3: on `[Entry, B1, B2]` with an input that takes `Entry` to `B1`, the original
function visits `Entry`, `B1`, `B2`; `run` ends in a fault, and no execution of the
function it leaves behind visits `B1` (nor any block but `NewEntry`). -/
theorem run_F3_loses_B1 :
    trace F3 (fun _ => true) 4 = [10, 20, 30] ∧
      (run F3).result = .error (.useAfterErase 37) ∧
      ∀ fuel : Nat, 20 ∉ trace (run F3).F (fun _ => true) fuel := by
  refine ⟨by decide, by decide, fun fuel => ?_⟩
  cases fuel with
  | zero => rw [trace_zero]; exact List.not_mem_nil _
  | succ n => rw [trace_run_of_two_le F3 (by decide)]; decide

/-- C4: for `[Entry, B1, B2]` (three blocks) the `BlockMap` has three entries, not two:
`NewEntry` (address 33) is in its domain with identifier 1, and the identifiers are
1, 2, 3. -/
theorem blockMap_F3_has_newEntry :
    F3.wellFormed = true ∧ F3.size = 3 ∧
      blockMapOf F3 = some [(33, 1), (20, 2), (30, 3)] ∧
      (afterSetup F3).map (fun p => p.2.NewEntry) = some 33 := by
  decide

/-- C5: for `[Entry, B1, B2]` the `BlockMap` gives `B1` the identifier 2 and `B2` the
identifier 3; identifier 1 went to `NewEntry`. -/
theorem blockMap_F3_ids_shifted :
    (blockMapOf F3).map (fun m => (m.get 20, m.get 30, m.get 33)) = some (2, 3, 1) := by
  decide

/-- C6: for `[Entry, B1, B2]` the block `NewEntry` is, when `run` ends, the state store
of the rewrite loop, a branch to `NewEntry` itself, the allocation, the store of 0 and
the load; it holds no switch.  When line 43 is reached it is the allocation, the store
of 0, the load and a switch with default `Entry` and no case. -/
theorem newEntry_F3_contents :
    (run F3).F.blocks.head? =
        some ⟨33, [⟨38, .store 1 34⟩, ⟨39, .br 33⟩, ⟨34, .alloca⟩, ⟨35, .store 0 34⟩,
                   ⟨36, .load 34⟩]⟩ ∧
      (afterSetup F3).map (fun p => p.1.F.blocks.head?) =
        some (some ⟨33, [⟨34, .alloca⟩, ⟨35, .store 0 34⟩, ⟨36, .load 34⟩,
                          ⟨37, .switch 36 10 4 []⟩]⟩) := by
  decide

/-- C7: for `[Entry, B1, B2]` the only control-transfer instruction of `NewEntry` when
`run` ends is a branch to `NewEntry`, which is not its last instruction, so that the
block has no terminator.  Lines 63-67 applied to the state of line 43 (where the switch
is the terminator) put a branch to `Entry` in front of the switch: two control-transfer
instructions. -/
theorem newEntry_F3_control_transfers :
    ((run F3).F.block? 33).map BasicBlock.controlTransfers = some [⟨39, .br 33⟩] ∧
      ((run F3).F.block? 33).bind BasicBlock.getTerminator = none ∧
      (afterSetup F3).map (fun p => (finish p.2 p.1).map
          (fun st => (st.F.block? 33).map BasicBlock.controlTransfers)) =
        some (.ok (some [⟨38, .br 10⟩, ⟨37, .switch 36 10 4 []⟩])) := by
  decide

/-- C8: for `[Entry, B1, B2]` the block `B1` is, when `run` ends, as it was: its original
terminator `br B2` is still there and its successor is `B2`.  The loop body of lines
47-60 applied to `B1` in the state of line 43 puts the branch to `NewEntry` in front of
the first instruction of `B1`, not at its end, so that `B1` has no terminator and no
successor. -/
theorem nonEntry_F3_not_redirected :
    (run F3).F.block? 20 = some ⟨20, [⟨21, .other 1⟩, ⟨22, .br 30⟩]⟩ ∧
      ((run F3).F.block? 20).map BasicBlock.successors = some [30] ∧
      (afterSetup F3).map (fun p => (rewriteBlock p.2 p.1 20).map
          (fun st => ((st.F.block? 20), (st.F.block? 20).map BasicBlock.successors))) =
        some (.ok (some ⟨20, [⟨38, .store 2 34⟩, ⟨39, .br 33⟩, ⟨21, .other 1⟩]⟩, some [])) := by
  decide

/-- C9, as stated, fails: for `[Entry, B1, B2]` the entry block has, when `run` ends, its
two direct edges to the original blocks `B1` and `B2`; and it has them too when the
rewrite loop is run, from the state of line 43, over the three original blocks alone
and completes: line 47 skips the entry block. -/
theorem entry_F3_keeps_direct_edges :
    F3.wellFormed = true ∧ noDirectEdges F3 (run F3).F 33 = false ∧
      ((run F3).F.block? 10).map BasicBlock.successors = some [20, 30] ∧
      (afterSetup F3).map (fun p => (rewriteLoop p.2 [10, 20, 30] p.1).toOption.map
          (fun st => (noDirectEdges F3 st.F 33, (st.F.block? 10).map BasicBlock.successors))) =
        some (some (false, some [20, 30])) := by
  decide

/-- C10: for `[Entry, B1]` the first instruction of `NewEntry` when `run` ends is the
store of 1 of the rewrite loop, in front of the allocation, and the only control
transfer of `NewEntry` is a branch to itself: no execution from the new entry visits
the original entry block. -/
theorem run_F2_never_reaches_entry :
    ((run F2).F.blocks.head?.map (fun b => b.insts.take 2)) =
        some [⟨28, .store 1 24⟩, ⟨29, .br 23⟩] ∧
      ∀ (env : Nat → Bool) (fuel : Nat), 10 ∉ trace (run F2).F env fuel := by
  refine ⟨by decide, fun env fuel => ?_⟩
  cases fuel with
  | zero => rw [trace_zero]; exact List.not_mem_nil _
  | succ n => rw [trace_run_of_two_le F2 (by decide)]; decide

/-! ## Block order -/

theorem moveAfter_eq_self (G : Function) (n x : BasicBlock) (r : List BasicBlock)
    (hG : G.blocks = n :: x :: r) (hn : n.ref ≠ x.ref) (hr : ∀ b ∈ r, b.ref ≠ x.ref) :
    G.moveAfter x.ref n.ref = G := by
  have hfilter : r.filter (fun b => b.ref != x.ref) = r := by
    rw [List.filter_eq_self]
    intro b hb
    simpa using hr b hb
  have hn2 : (n.ref == x.ref) = false := by simpa using hn
  cases G with
  | mk blocks =>
    simp only at hG
    subst hG
    simp [Function.moveAfter, Function.block?, List.find?_cons, hn2, hn, hn.symm,
      List.filter_cons, hfilter, insertBlockAfter]

/-- C13: `[Entry, B1, B2]` is well formed, yet the call reaches neither the `moveAfter` of
line 64 nor its end: `run` ends in the use of the erased switch at line 60.  The block
order `[NewEntry, Entry, B1, B2]` is the order line 24 sets up; it is the order at the
fault, and lines 63-67 applied to the state of line 43 leave it as it is. -/
theorem block_order_F3_never_finalised :
    F3.wellFormed = true ∧ (run F3).result = .error (.useAfterErase 37) ∧
      (afterSetup F3).map (fun p => p.1.F.blocks.map BasicBlock.ref) = some [33, 10, 20, 30] ∧
      (faultState F3).map (fun p => p.2.F.blocks.map BasicBlock.ref) = some [33, 10, 20, 30] ∧
      (afterSetup F3).map (fun p => (finish p.2 p.1).toOption.map
          (fun st => st.F.blocks.map BasicBlock.ref)) = some (some [33, 10, 20, 30]) := by
  decide

/-! ## The entry block and the lookups of lines 60 and 66 -/

/-- C11: in `[Entry, B1, B2]` the block `B2` is a direct successor of `B1`, yet in the
function `run` leaves behind `B1` has no edge to `NewEntry` (its only edge still goes to
`B2`) and `NewEntry` has no edge to `B2` (its only edge goes to itself).  When the
rewrite loop is run, from the state of line 43, over the three original blocks alone,
it completes with an edge from `B1` to `NewEntry` and an edge from `NewEntry` to
`B2`. -/
theorem successor_F3_not_routed_through_dispatcher :
    F3.wellFormed = true ∧ (F3.block? 20).map BasicBlock.successors = some [30] ∧
      (run F3).result = .error (.useAfterErase 37) ∧
      ((run F3).F.block? 20).map BasicBlock.edges = some [30] ∧
      ((run F3).F.block? 33).map BasicBlock.edges = some [33] ∧
      (afterSetup F3).map (fun p => (rewriteLoop p.2 [10, 20, 30] p.1).toOption.map
          (fun st => ((st.F.block? 20).map BasicBlock.edges,
            (st.F.block? 33).map BasicBlock.edges))) =
        some (some (some [33], some [10, 20, 30])) := by
  decide

/-- C14, as stated, fails: in the function `run` leaves behind for `[Entry, B1, B2]` the
only control transfer of `Entry` is its conditional branch to `B1` or `B2`, and `Entry`
holds no store. -/
theorem entry_F3_not_rewritten :
    ((run F3).F.block? 10).map BasicBlock.controlTransfers = some [⟨12, .condBr 11 20 30⟩] ∧
      ((run F3).F.block? 10).map (fun b => b.insts.filter (fun i => i.op.isStore)) = some [] ∧
      ((run F3).F.block? 10).map (fun b => b.edges.contains 33) = some false := by
  decide

/-- C14, amended: the body of the rewrite loop leaves every state as it is when the
block is the entry block (line 47), and for `[Entry, B1, B2]` the block `Entry` holds,
in the function `run` leaves behind, exactly its two original instructions, the second
of them the conditional branch to `B1` or `B2`. -/
theorem rewriteBlock_skips_entry :
    (∀ (L : Locals) (st : PassState), rewriteBlock L st L.EntryBlock = .ok st) ∧
      ((run F3).F.block? 10).map BasicBlock.insts =
        some [⟨11, .other 0⟩, ⟨12, .condBr 11 20 30⟩] := by
  refine ⟨fun L st => ?_, by decide⟩
  simp [rewriteBlock]

/-- C18: `[Entry, B1, B2]` is well formed, yet lines 21-67 do not run to completion on it:
the switch created at line 34 (address 37) is erased when line 60 is first reached, so
the call of `addCase` is on an erased instruction; and in the state this leaves, the
lookup of line 66 yields null, because `NewEntry` has no terminator. -/
theorem flatten_F3_failed_lookups :
    F3.wellFormed = true ∧ (afterSetup F3).map (fun p => p.2.Switch) = some 37 ∧
      (faultState F3).map (fun p => (p.1, p.2.erased)) = some (.useAfterErase 37, [37]) ∧
      (faultState F3).map (fun p => (p.2.F.block? 33).bind BasicBlock.getTerminator) = some none ∧
      (afterSetup F3).bind (fun q => (faultState F3).map (fun p => faultOf (finish q.2 p.2))) =
        some (some (.nullTerminator 33)) := by
  decide

/-! ## The body of the rewrite loop on one block -/

theorem block?_ref (F : Function) (bb : Ref) (b : BasicBlock) (h : F.block? bb = some b) :
    b.ref = bb := by
  have := List.find?_some h
  simpa using this

theorem block?_map (F : Function) (bb : Ref) (g : BasicBlock → BasicBlock)
    (hg : ∀ b, (g b).ref = b.ref) :
    (⟨F.blocks.map g⟩ : Function).block? bb = (F.block? bb).map g := by
  cases F with
  | mk blocks =>
    simp only [Function.block?]
    induction blocks with
    | nil => rfl
    | cons a t ih =>
      by_cases ha : a.ref = bb
      · simp [List.find?_cons, hg, ha]
      · simp [List.find?_cons, hg, ha, ih]

theorem block?_modifyBlock (F : Function) (bb : Ref) (f : BasicBlock → BasicBlock)
    (hf : ∀ b, (f b).ref = b.ref) (b : BasicBlock) (hb : F.block? bb = some b) :
    (F.modifyBlock bb f).block? bb = some (f b) := by
  have hmap := block?_map F bb (fun x => if x.ref = bb then f x else x)
    (by intro x; by_cases hx : x.ref = bb <;> simp [hx, hf])
  simp only [Function.modifyBlock, hmap, hb, Option.map_some', block?_ref F bb b hb, if_true]

theorem insertBeforeInst_mid (new x : Instruction) (hd tl : List Instruction)
    (h : ∀ i ∈ hd, i.ref ≠ x.ref) :
    insertBeforeInst new x.ref (hd ++ x :: tl) = hd ++ new :: x :: tl := by
  induction hd with
  | nil => simp [insertBeforeInst]
  | cons a t ih =>
    have ha : a.ref ≠ x.ref := h a (List.mem_cons_self _ _)
    simp [insertBeforeInst, ha, ih (fun i hi => h i (List.mem_cons_of_mem _ hi))]

theorem getLast?_insertBeforeInst (new : Instruction) (r : Ref) (l : List Instruction) :
    (insertBeforeInst new r l).getLast? = l.getLast? := by
  induction l with
  | nil => rfl
  | cons a t ih =>
    by_cases ha : a.ref = r
    · simp [insertBeforeInst, ha, List.getLast?_cons_cons]
    · simp only [insertBeforeInst, ha, if_false]
      cases t with
      | nil => simp [insertBeforeInst]
      | cons b t2 =>
        have : insertBeforeInst new r (b :: t2) ≠ [] := by
          by_cases hb : b.ref = r <;> simp [insertBeforeInst, hb]
        obtain ⟨c, t3, hc⟩ := List.exists_cons_of_ne_nil this
        rw [hc, List.getLast?_cons_cons, List.getLast?_cons_cons, ← hc, ih]

theorem create_before_eq (st : PassState) (bb i : Ref) (op : Opcode) (h : i ∉ st.erased) :
    st.create (.before bb i) op =
      .ok (⟨st.F.modifyBlock bb (fun b => { b with insts := insertBeforeInst ⟨st.next, op⟩ i b.insts }),
            st.erased, st.next + 1⟩, st.next) := by
  simp [PassState.create, h]

theorem map_addCase_of_fresh (sw : Ref) (v : Nat) (dest : Ref) (l : List Instruction)
    (h : ∀ i ∈ l, i.ref ≠ sw) :
    l.map (fun j => if j.ref = sw then (⟨j.ref, j.op.addCase v dest⟩ : Instruction) else j) = l := by
  induction l with
  | nil => rfl
  | cons a t ih =>
    have ha : a.ref ≠ sw := h a (List.mem_cons_self _ _)
    simp only [List.map_cons, if_neg ha]
    rw [ih (fun i hi => h i (List.mem_cons_of_mem _ hi))]

theorem getTerminator_insertBeforeInst (r : Ref) (new : Instruction) (at_ : Ref)
    (l : List Instruction) :
    BasicBlock.getTerminator ⟨r, insertBeforeInst new at_ l⟩ = BasicBlock.getTerminator ⟨r, l⟩ := by
  simp only [BasicBlock.getTerminator, getLast?_insertBeforeInst]

/-- The body of the rewrite loop on a block `hd ++ ip :: rest` that has no terminator and
whose first insertion point is `ip`: nothing is erased, the step succeeds, and the store
of the case value of the block and the branch to `NewEntry` stand in front of `ip`. -/
theorem rewriteBlock_of_no_terminator (L : Locals) (st : PassState) (BB : Ref) (b : BasicBlock)
    (hd rest : List Instruction) (ip : Instruction)
    (hE : BB ≠ L.EntryBlock) (hb : st.F.block? BB = some b)
    (hins : b.insts = hd ++ ip :: rest) (hhd : ∀ i ∈ hd, i.ref ≠ ip.ref)
    (hip : b.getFirstInsertionPt = some ip) (hterm : b.getTerminator = none)
    (hnext : st.next ≠ ip.ref) (hsw : ∀ i ∈ b.insts, i.ref ≠ L.Switch)
    (hsw1 : st.next ≠ L.Switch) (hsw2 : st.next + 1 ≠ L.Switch)
    (h1 : ip.ref ∉ st.erased) (h2 : L.Switch ∉ st.erased) :
    ∃ st1, rewriteBlock L st BB = .ok st1 ∧ st1.erased = st.erased ∧
      st1.F.block? BB =
        some ⟨BB, hd ++ ⟨st.next, .store (L.BlockMap.get BB) L.SwitchVar⟩ ::
          ⟨st.next + 1, .br L.NewEntry⟩ :: ip :: rest⟩ := by
  have hbref := block?_ref st.F BB b hb
  have hblk1 := block?_modifyBlock st.F BB
    (fun x => { x with insts := insertBeforeInst ⟨st.next, .store (L.BlockMap.get BB) L.SwitchVar⟩ ip.ref x.insts })
    (fun _ => rfl) b hb
  have hterm1 : BasicBlock.getTerminator
      ⟨b.ref, insertBeforeInst ⟨st.next, .store (L.BlockMap.get BB) L.SwitchVar⟩ ip.ref b.insts⟩ = none := by
    rw [getTerminator_insertBeforeInst]; exact hterm
  have hblk2 := block?_modifyBlock _ BB
    (fun x => { x with insts := insertBeforeInst ⟨st.next + 1, .br L.NewEntry⟩ ip.ref x.insts })
    (fun _ => rfl) _ hblk1
  have hi1 : insertBeforeInst ⟨st.next, .store (L.BlockMap.get BB) L.SwitchVar⟩ ip.ref b.insts
      = hd ++ ⟨st.next, .store (L.BlockMap.get BB) L.SwitchVar⟩ :: ip :: rest := by
    rw [hins]; exact insertBeforeInst_mid _ ip hd rest hhd
  have hi2 : insertBeforeInst ⟨st.next + 1, .br L.NewEntry⟩ ip.ref
      (hd ++ ⟨st.next, .store (L.BlockMap.get BB) L.SwitchVar⟩ :: ip :: rest)
      = hd ++ ⟨st.next, .store (L.BlockMap.get BB) L.SwitchVar⟩ ::
          ⟨st.next + 1, .br L.NewEntry⟩ :: ip :: rest := by
    have := insertBeforeInst_mid ⟨st.next + 1, .br L.NewEntry⟩ ip
      (hd ++ [⟨st.next, .store (L.BlockMap.get BB) L.SwitchVar⟩]) rest (by
        intro i hi
        rcases List.mem_append.mp hi with hi | hi
        · exact hhd i hi
        · rw [List.mem_singleton.mp hi]; exact hnext)
    simpa using this
  have hfresh : ∀ i ∈ hd ++ (⟨st.next, .store (L.BlockMap.get BB) L.SwitchVar⟩ : Instruction) ::
      ⟨st.next + 1, .br L.NewEntry⟩ :: ip :: rest, i.ref ≠ L.Switch := by
    intro i hi
    simp only [List.mem_append, List.mem_cons] at hi
    rcases hi with hi | hi | hi | hi | hi
    · exact hsw i (by rw [hins]; simp [hi])
    · rw [hi]; exact hsw1
    · rw [hi]; exact hsw2
    · rw [hi]; exact hsw ip (by rw [hins]; simp)
    · exact hsw i (by rw [hins]; simp [hi])
  have hrw : rewriteBlock L st BB = .ok
      ⟨⟨(((st.F.modifyBlock BB (fun x => (⟨x.ref, insertBeforeInst
            ⟨st.next, .store (L.BlockMap.get BB) L.SwitchVar⟩ ip.ref x.insts⟩ : BasicBlock))).modifyBlock BB
          (fun x => (⟨x.ref, insertBeforeInst
            ⟨st.next + 1, .br L.NewEntry⟩ ip.ref x.insts⟩ : BasicBlock))).blocks.map
          (fun x => (⟨x.ref, x.insts.map (fun j =>
            if j.ref = L.Switch then (⟨j.ref, j.op.addCase (L.BlockMap.get BB) BB⟩ : Instruction)
            else j)⟩ : BasicBlock)))⟩,
        st.erased, st.next + 1 + 1⟩ := by
    have h1b : ip.ref ∉ (⟨st.F.modifyBlock BB (fun x => (⟨x.ref, insertBeforeInst
        ⟨st.next, .store (L.BlockMap.get BB) L.SwitchVar⟩ ip.ref x.insts⟩ : BasicBlock)),
        st.erased, st.next + 1⟩ : PassState).erased := h1
    simp only [rewriteBlock, hE, if_false, hb, Option.some_bind, hip, create_before_eq _ _ _ _ h1,
      bind, Except.bind, hblk1, hterm1, create_before_eq _ _ _ _ h1b, PassState.addCase, h2]
  refine ⟨_, hrw, rfl, ?_⟩
  simp only []
  rw [block?_map _ BB _ (by intro x; rfl), hblk2]
  simp only [Option.map_some', hi1, hi2, hbref, map_addCase_of_fresh _ _ _ _ hfresh]

theorem afterSetup_eq (F : Function) (e : BasicBlock) (r : List BasicBlock)
    (h : F.blocks = e :: r) :
    afterSetup F = some
      (⟨⟨synthesizedNewEntry F e.ref :: F.blocks⟩, [], F.maxRef + 6⟩,
       ⟨e.ref, F.maxRef + 1, F.maxRef + 2, F.maxRef + 4, F.maxRef + 5,
        (buildBlockMap e.ref r [(F.maxRef + 1, 1)] 2).1⟩) := by
  simp only [afterSetup, h, List.head?_cons, setup_eq F e r h]

theorem find?_of_nodup (l : List BasicBlock) (b : BasicBlock) (hb : b ∈ l)
    (hnd : (l.map BasicBlock.ref).Nodup) : l.find? (fun x => x.ref == b.ref) = some b := by
  induction l with
  | nil => cases hb
  | cons a t ih =>
    have hnd2 : a.ref ∉ t.map BasicBlock.ref ∧ (t.map BasicBlock.ref).Nodup :=
      List.nodup_cons.mp hnd
    rcases List.mem_cons.mp hb with rfl | hb2
    · simp [List.find?_cons]
    · have hne : a.ref ≠ b.ref := fun hh => hnd2.1 (hh ▸ List.mem_map.mpr ⟨b, hb2, rfl⟩)
      simp [List.find?_cons, hne, ih hb2 hnd2.2]

/-- In the state of line 43, a block of `F` behind the entry block is found at its
address, when the blocks of `F` have distinct addresses. -/
theorem afterSetup_block? (F : Function) (e b : BasicBlock) (r : List BasicBlock)
    (h : F.blocks = e :: r) (hb : b ∈ r) (hnd : (F.blocks.map BasicBlock.ref).Nodup) :
    b.ref ≠ e.ref ∧
      (⟨synthesizedNewEntry F e.ref :: F.blocks⟩ : Function).block? b.ref = some b := by
  have hbF : b ∈ F.blocks := by rw [h]; exact List.mem_cons_of_mem _ hb
  have hfresh : F.maxRef + 1 ≠ b.ref := fun hh => blocks_ref_ne_fresh F 0 b hbF hh.symm
  have hfind := find?_of_nodup F.blocks b hbF hnd
  rw [h] at hnd
  have hnd2 : e.ref ∉ r.map BasicBlock.ref ∧ (r.map BasicBlock.ref).Nodup :=
    List.nodup_cons.mp hnd
  have hne : b.ref ≠ e.ref := fun hh => hnd2.1 (hh ▸ List.mem_map.mpr ⟨b, hb, rfl⟩)
  refine ⟨hne, ?_⟩
  simp [Function.block?, List.find?_cons, synthesizedNewEntry, hfresh, hfind]

theorem nodup_mid (hd tl : List Instruction) (x : Instruction)
    (h : ((hd ++ x :: tl).map Instruction.ref).Nodup) :
    (∀ i ∈ hd, i.ref ≠ x.ref) ∧ (∀ i ∈ tl, i.ref ≠ x.ref) := by
  rw [List.map_append, List.map_cons] at h
  have h1 := List.nodup_append.mp h
  have h2 := List.nodup_cons.mp h1.2.1
  refine ⟨fun i hi hh => ?_, fun i hi hh => ?_⟩
  · exact h1.2.2 (List.mem_map.mpr ⟨i, hi, rfl⟩) (by rw [hh]; exact List.mem_cons_self _ _)
  · exact h2.1 (hh ▸ List.mem_map.mpr ⟨i, hi, rfl⟩)

/-! ## The claims on the rewrite of a block -/

/-- C12, as stated, fails: in `[Entry, B1]` the block `B1` has no terminator, yet `run`
modifies the function (it leaves three blocks, the first of them `NewEntry`), the fault
that ends it is the use of the erased switch, the same as on the well-formed
`[Entry, B1]`, and the body of the rewrite loop applied to `B1` in the state of line 43
ends without a fault, with the store and the branch inserted. -/
theorem missing_terminator_F2bad_not_reported :
    (F2bad.block? 20).bind BasicBlock.getTerminator = none ∧
      (run F2bad).F ≠ F2bad ∧ (run F2bad).F.size = 3 ∧
      (run F2bad).result = .error (.useAfterErase 26) ∧
      (afterSetup F2bad).map (fun p => faultOf (rewriteBlock p.2 p.1 20)) = some none ∧
      (afterSetup F2bad).map (fun p => (rewriteBlock p.2 p.1 20).toOption.map
          (fun st => st.F.block? 20)) =
        some (some (some ⟨20, [⟨27, .store 2 23⟩, ⟨28, .br 22⟩, ⟨21, .other 1⟩]⟩)) := by
  decide

/-- C12, amended: the pass does not check for missing terminators.  For every function
`[Entry, ...]` with blocks at distinct addresses and every block `B = hd ++ ip :: rest`
behind the entry block that has no terminator and whose first insertion point is `ip`:
when line 43 is reached the function has one block more (`NewEntry` is inserted), and
the body of the rewrite loop applied to `B` in that state ends without a fault, erases
nothing (lines 53-56 are skipped) and leaves `B` with the state store and the branch to
`NewEntry` in front of `ip`. -/
theorem rewrite_tolerates_missing_terminator (F : Function) (e b : BasicBlock)
    (r : List BasicBlock) (hd rest : List Instruction) (ip : Instruction)
    (h : F.blocks = e :: r) (hb : b ∈ r) (hnd : (F.blocks.map BasicBlock.ref).Nodup)
    (hins : b.insts = hd ++ ip :: rest) (hndi : (b.insts.map Instruction.ref).Nodup)
    (hip : b.getFirstInsertionPt = some ip) (hterm : b.getTerminator = none) :
    ∃ st L st1, afterSetup F = some (st, L) ∧ st.F.size = F.size + 1 ∧
      rewriteBlock L st b.ref = .ok st1 ∧ st1.erased = [] ∧
      st1.F.block? b.ref =
        some ⟨b.ref, hd ++ ⟨F.maxRef + 6, .store (L.BlockMap.get b.ref) L.SwitchVar⟩ ::
          ⟨F.maxRef + 7, .br L.NewEntry⟩ :: ip :: rest⟩ := by
  have hbF : b ∈ F.blocks := by rw [h]; exact List.mem_cons_of_mem _ hb
  obtain ⟨hne, hblk⟩ := afterSetup_block? F e b r h hb hnd
  have hipF : ip ∈ b.insts := by rw [hins]; simp
  obtain ⟨st1, h1, h2, h3⟩ := rewriteBlock_of_no_terminator
    ⟨e.ref, F.maxRef + 1, F.maxRef + 2, F.maxRef + 4, F.maxRef + 5,
      (buildBlockMap e.ref r [(F.maxRef + 1, 1)] 2).1⟩
    ⟨⟨synthesizedNewEntry F e.ref :: F.blocks⟩, [], F.maxRef + 6⟩ b.ref b hd rest ip
    hne hblk hins (nodup_mid hd rest ip (hins ▸ hndi)).1 hip hterm
    (fun hh => insts_ref_ne_fresh F 5 b hbF ip hipF hh.symm)
    (insts_ref_ne_fresh F 4 b hbF) (by simp) (by simp) (by simp) (by simp)
  exact ⟨_, _, st1, afterSetup_eq F e r h, by simp [Function.size], h1, h2, h3⟩

theorem rewrite_tolerates_missing_terminator_witness :
    F2bad.blocks = [⟨10, [⟨11, .br 20⟩]⟩, ⟨20, [⟨21, .other 1⟩]⟩] ∧
      BasicBlock.getTerminator ⟨20, [⟨21, .other 1⟩]⟩ = none ∧
      ∃ st L st1, afterSetup F2bad = some (st, L) ∧ st.F.size = F2bad.size + 1 ∧
        rewriteBlock L st 20 = .ok st1 ∧ st1.erased = [] ∧
        st1.F.block? 20 =
          some ⟨20, [] ++ ⟨F2bad.maxRef + 6, .store (L.BlockMap.get 20) L.SwitchVar⟩ ::
            ⟨F2bad.maxRef + 7, .br L.NewEntry⟩ :: ⟨21, .other 1⟩ :: []⟩ :=
  ⟨rfl, by decide,
    rewrite_tolerates_missing_terminator F2bad ⟨10, [⟨11, .br 20⟩]⟩ ⟨20, [⟨21, .other 1⟩]⟩
      [⟨20, [⟨21, .other 1⟩]⟩] [] [] ⟨21, .other 1⟩ rfl (by decide) (by decide) rfl
      (by decide) (by decide) (by decide)⟩

/-- C15: in the function `run` leaves behind for `[Entry, B1, B2]` (with a PHI node at the
head of `B1`), the first insertion point of `B1` is still its original instruction and
`B1` holds no store, although `BlockMap` gives `B1` the identifier 2.  The body of the
rewrite loop applied to `B1` in the state of line 43 puts the store of 2 at the first
insertion point, behind the PHI node. -/
theorem nonEntry_F3phi_has_no_state_store :
    F3phi.wellFormed = true ∧ (blockMapOf F3phi).map (fun m => m.get 20) = some 2 ∧
      ((run F3phi).F.block? 20).bind BasicBlock.getFirstInsertionPt = some ⟨22, .other 1⟩ ∧
      ((run F3phi).F.block? 20).map (fun b => b.insts.filter (fun i => i.op.isStore)) = some [] ∧
      (afterSetup F3phi).map (fun p => (rewriteBlock p.2 p.1 20).toOption.map
          (fun st => st.F.block? 20)) =
        some (some (some ⟨20, [⟨21, .phi⟩, ⟨39, .store 2 35⟩, ⟨40, .br 34⟩, ⟨22, .other 1⟩]⟩)) := by
  decide

/-- C16: in the function `run` leaves behind for `[Entry, B1]` the block `B1` still ends
in its `ret` and holds no branch to `NewEntry`.  The body of the rewrite loop applied to
`B1` in the state of line 43 puts the branch to `NewEntry` in second place, in front of
the original instruction of `B1`, so that the last instruction of `B1` is no terminator;
and on a `B1` that is a lone `ret` the branch of line 57 is inserted at the erased
`ret`. -/
theorem branch_to_dispatcher_not_last :
    F2.wellFormed = true ∧ F2ret.wellFormed = true ∧
      ((run F2).F.block? 20).map BasicBlock.insts = some [⟨21, .other 1⟩, ⟨22, .ret⟩] ∧
      (afterSetup F2).map (fun p => (rewriteBlock p.2 p.1 20).toOption.map
          (fun st => (st.F.block? 20, (st.F.block? 20).bind BasicBlock.getTerminator))) =
        some (some (some ⟨20, [⟨28, .store 2 24⟩, ⟨29, .br 23⟩, ⟨21, .other 1⟩]⟩, none)) ∧
      (afterSetup F2ret).map (fun p => faultOf (rewriteBlock p.2 p.1 20)) =
        some (some (.erasedInsertPoint 21)) := by
  decide

/-- C19: in the function `run` leaves behind for `[Entry, B1, B2]` the entry block is as
it was, and so is `B1`: its instructions are its original instructions with the
original terminator `br B2`, not without it.  The body of the rewrite loop applied to
`B1` in the state of line 43 leaves, the two inserted instructions apart, the original
instructions of `B1` without its terminator. -/
theorem nonEntry_F3_keeps_terminator :
    (run F3).F.block? 10 = F3.block? 10 ∧
      ((run F3).F.block? 20).map BasicBlock.insts = some [⟨21, .other 1⟩, ⟨22, .br 30⟩] ∧
      (F3.block? 20).map (fun b => b.insts.dropLast) = some [⟨21, .other 1⟩] ∧
      (afterSetup F3).map (fun p => (rewriteBlock p.2 p.1 20).toOption.map
          (fun st => (st.F.block? 20).map
            (fun b => b.insts.filter (fun i => decide (i.ref < p.1.next))))) =
        some (some (some [⟨21, .other 1⟩])) := by
  decide

/-! ## The rewrite loop never changes the entry block -/

theorem mem_insertBeforeInst (new x : Instruction) (r : Ref) (l : List Instruction)
    (h : x ∈ insertBeforeInst new r l) : x = new ∨ x ∈ l := by
  induction l with
  | nil => simp [insertBeforeInst] at h
  | cons a t ih =>
    by_cases ha : a.ref = r
    · simp only [insertBeforeInst, ha, if_true, List.mem_cons] at h
      rcases h with h | h | h
      · exact Or.inl h
      · exact Or.inr (by simp [h])
      · exact Or.inr (by simp [h])
    · simp only [insertBeforeInst, ha, if_false, List.mem_cons] at h
      rcases h with h | h
      · exact Or.inr (by simp [h])
      · rcases ih h with h2 | h2
        · exact Or.inl h2
        · exact Or.inr (by simp [h2])

theorem block?_map_fixed (F : Function) (bb : Ref) (g : BasicBlock → BasicBlock)
    (hg : ∀ b, (g b).ref = b.ref) (e : BasicBlock) (he : F.block? bb = some e) (hge : g e = e) :
    (⟨F.blocks.map g⟩ : Function).block? bb = some e := by
  rw [block?_map F bb g hg, he, Option.map_some', hge]

theorem entryKept_create (L : Locals) (e : BasicBlock) (st : PassState) (bb i : Ref)
    (op : Opcode) (hbb : bb ≠ L.EntryBlock) (hk : EntryKept L e st) :
    (∀ st1 r, st.create (.before bb i) op = .ok (st1, r) → EntryKept L e st1) ∧
      (∀ f st1, st.create (.before bb i) op = .error (f, st1) → EntryKept L e st1) := by
  obtain ⟨hb, hfr, hdis⟩ := hk
  have heref := block?_ref st.F L.EntryBlock e hb
  by_cases hi : i ∈ st.erased
  · have hc : st.create (.before bb i) op = .error (.erasedInsertPoint i, st) := by
      simp [PassState.create, hi]
    rw [hc]
    refine ⟨fun st1 r h => (by cases h), fun f st1 h => ?_⟩
    cases h
    exact ⟨hb, hfr, hdis⟩
  · rw [create_before_eq st bb i op hi]
    refine ⟨fun st1 r h => ?_, fun f st1 h => by cases h⟩
    cases h
    refine ⟨?_, fun j hj => ⟨Nat.lt_succ_of_lt (hfr j hj).1, (hfr j hj).2⟩, ?_⟩
    · have := block?_map_fixed st.F L.EntryBlock
        (fun x => if x.ref = bb then
          (⟨x.ref, insertBeforeInst ⟨st.next, op⟩ i x.insts⟩ : BasicBlock) else x)
        (by intro x; by_cases hx : x.ref = bb <;> simp [hx]) e hb
        (by simp [heref, Ne.symm hbb])
      exact this
    · intro b1 hb1 hne i1 hi1 j hj
      simp only [Function.modifyBlock, List.mem_map] at hb1
      obtain ⟨b0, hb0, hb01⟩ := hb1
      by_cases hx : b0.ref = bb
      · simp only [hx, if_true] at hb01
        subst hb01
        rcases mem_insertBeforeInst _ _ _ _ hi1 with h1 | h1
        · rw [h1]; exact fun hh => Nat.lt_irrefl _ (hh ▸ (hfr j hj).1)
        · exact hdis b0 hb0 (by rw [hx]; exact hbb) i1 h1 j hj
      · simp only [hx, if_false] at hb01
        subst hb01
        exact hdis b0 hb0 hne i1 hi1 j hj

theorem entryKept_erase (L : Locals) (e : BasicBlock) (st : PassState) (t : Ref)
    (ht : ∀ j ∈ e.insts, j.ref ≠ t) (hk : EntryKept L e st) :
    EntryKept L e (st.eraseFromParent t) := by
  obtain ⟨hb, hfr, hdis⟩ := hk
  refine ⟨?_, hfr, ?_⟩
  · have := block?_map_fixed st.F L.EntryBlock
      (fun b => (⟨b.ref, b.insts.filter (fun j => j.ref != t)⟩ : BasicBlock))
      (fun _ => rfl) e hb (by simp only [filter_insts_of_fresh e.insts t ht])
    exact this
  · intro b1 hb1 hne i1 hi1 j hj
    simp only [PassState.eraseFromParent, List.mem_map] at hb1
    obtain ⟨b0, hb0, hb01⟩ := hb1
    subst hb01
    exact hdis b0 hb0 hne i1 (List.mem_of_mem_filter hi1) j hj

theorem entryKept_addCase (L : Locals) (e : BasicBlock) (st : PassState) (v : Nat) (dest : Ref)
    (hk : EntryKept L e st) : EntryKept L e (endState (st.addCase L.Switch v dest)) := by
  obtain ⟨hb, hfr, hdis⟩ := hk
  by_cases hs : L.Switch ∈ st.erased
  · simp only [PassState.addCase, hs, if_true, endState]
    exact ⟨hb, hfr, hdis⟩
  · simp only [PassState.addCase, hs, if_false, endState]
    refine ⟨?_, hfr, ?_⟩
    · have := block?_map_fixed st.F L.EntryBlock
        (fun b => (⟨b.ref, b.insts.map (fun j =>
          if j.ref = L.Switch then (⟨j.ref, j.op.addCase v dest⟩ : Instruction) else j)⟩ : BasicBlock))
        (fun _ => rfl) e hb
        (by simp only [map_addCase_of_fresh L.Switch v dest e.insts (fun j hj => (hfr j hj).2)])
      exact this
    · intro b1 hb1 hne i1 hi1 j hj
      simp only [List.mem_map] at hb1
      obtain ⟨b0, hb0, hb01⟩ := hb1
      subst hb01
      simp only [List.mem_map] at hi1
      obtain ⟨i0, hi0, hi01⟩ := hi1
      have : i1.ref = i0.ref := by
        rw [← hi01]; by_cases hx : i0.ref = L.Switch <;> simp [hx]
      rw [this]
      exact hdis b0 hb0 hne i0 hi0 j hj

theorem getTerminator_mem (b : BasicBlock) (t : Instruction) (h : b.getTerminator = some t) :
    t ∈ b.insts := by
  unfold BasicBlock.getTerminator at h
  cases hl : b.insts.getLast? with
  | none => simp [hl] at h
  | some x =>
    simp only [hl] at h
    by_cases hx : x.op.isTerminator = true
    · simp only [hx, if_true, Option.some.injEq] at h
      rw [← h]; exact List.mem_of_getLast?_eq_some hl
    · simp [hx] at h

/-- The body of the rewrite loop, on whatever block and whether it completes or ends in
a fault, leaves the entry block as it is. -/
theorem entryKept_rewriteBlock (L : Locals) (e : BasicBlock) (st : PassState) (BB : Ref)
    (hk : EntryKept L e st) : EntryKept L e (endState (rewriteBlock L st BB)) := by
  by_cases hE : BB = L.EntryBlock
  · simp only [rewriteBlock, hE, if_true, endState]; exact hk
  · cases hip : (st.F.block? BB).bind BasicBlock.getFirstInsertionPt with
    | none => simp only [rewriteBlock, hE, if_false, hip, endState]; exact hk
    | some ip =>
      have hc1 := entryKept_create L e st BB ip.ref (.store (L.BlockMap.get BB) L.SwitchVar) hE hk
      cases h1 : st.create (.before BB ip.ref) (.store (L.BlockMap.get BB) L.SwitchVar) with
      | error p =>
        simp only [rewriteBlock, hE, if_false, hip, h1, bind, Except.bind, endState]
        exact hc1.2 p.1 p.2 (by rw [h1])
      | ok q =>
        obtain ⟨st1, r1⟩ := q
        have hk1 : EntryKept L e st1 := hc1.1 st1 r1 h1
        have hk2 : EntryKept L e
            (match (st1.F.block? BB).bind BasicBlock.getTerminator with
              | some terminator => st1.eraseFromParent terminator.ref
              | none => st1) := by
          cases ht : (st1.F.block? BB).bind BasicBlock.getTerminator with
          | none => exact hk1
          | some t =>
            cases hb1 : st1.F.block? BB with
            | none => simp [hb1] at ht
            | some b1 =>
              simp only [hb1, Option.some_bind] at ht
              have hmem : b1 ∈ st1.F.blocks := List.mem_of_find?_eq_some hb1
              have hb1ref : b1.ref ≠ L.EntryBlock := by
                rw [block?_ref st1.F BB b1 hb1]; exact hE
              exact entryKept_erase L e st1 t.ref
                (fun j hj hh => hk1.2.2 b1 hmem hb1ref t (getTerminator_mem b1 t ht) j hj hh.symm) hk1
        have key : ∀ st2 : PassState, EntryKept L e st2 →
            EntryKept L e (endState (do
              let (st3, _) ← st2.create (.before BB ip.ref) (.br L.NewEntry)
              st3.addCase L.Switch (L.BlockMap.get BB) BB)) := by
          intro st2 hst2
          have hc2 := entryKept_create L e st2 BB ip.ref (.br L.NewEntry) hE hst2
          cases h2 : st2.create (.before BB ip.ref) (.br L.NewEntry) with
          | error p =>
            simp only [bind, Except.bind, endState]
            exact hc2.2 p.1 p.2 (by rw [h2])
          | ok q2 =>
            obtain ⟨st3, r3⟩ := q2
            simp only [bind, Except.bind]
            exact entryKept_addCase L e st3 _ _ (hc2.1 st3 r3 h2)
        simp only [rewriteBlock, hE, if_false, hip, h1, bind, Except.bind]
        exact key _ hk2

theorem entryKept_rewriteLoop (L : Locals) (e : BasicBlock) (bbs : List Ref) (st : PassState)
    (hk : EntryKept L e st) : EntryKept L e (endState (rewriteLoop L bbs st)) := by
  induction bbs generalizing st with
  | nil => exact hk
  | cons BB rest ih =>
    have h1 := entryKept_rewriteBlock L e st BB hk
    cases hr : rewriteBlock L st BB with
    | error p =>
      rw [hr] at h1
      simp only [rewriteLoop, hr, bind, Except.bind, endState]
      exact h1
    | ok st1 =>
      rw [hr] at h1
      simp only [rewriteLoop, hr, bind, Except.bind]
      exact ih st1 h1

theorem entryKept_afterSetup (F : Function) (e : BasicBlock) (r : List BasicBlock)
    (h : F.blocks = e :: r)
    (hdis : ∀ b ∈ r, ∀ i ∈ b.insts, ∀ j ∈ e.insts, i.ref ≠ j.ref) :
    EntryKept
      ⟨e.ref, F.maxRef + 1, F.maxRef + 2, F.maxRef + 4, F.maxRef + 5,
        (buildBlockMap e.ref r [(F.maxRef + 1, 1)] 2).1⟩ e
      ⟨⟨synthesizedNewEntry F e.ref :: F.blocks⟩, [], F.maxRef + 6⟩ := by
  have heF : e ∈ F.blocks := by rw [h]; exact List.mem_cons_self _ _
  have hne : (F.maxRef + 1 == e.ref) = false := by
    have := blocks_ref_ne_fresh F 0 e heF
    simpa using fun hh => this hh.symm
  have hle : ∀ j ∈ e.insts, j.ref ≤ F.maxRef := fun j hj => instRef_le_maxRef F e heF j hj
  refine ⟨?_, ?_, ?_⟩
  · simp [Function.block?, List.find?_cons, synthesizedNewEntry, h, hne]
  · intro j hj
    have := hle j hj
    exact ⟨Nat.lt_of_le_of_lt this (Nat.lt_add_of_pos_right (by decide)),
      Nat.ne_of_lt (Nat.lt_of_le_of_lt this (Nat.lt_add_of_pos_right (by decide)))⟩
  · intro b hb hbne i hi j hj
    have hj2 := hle j hj
    simp only [List.mem_cons] at hb
    rcases hb with hb | hb
    · subst hb
      simp only [synthesizedNewEntry, List.mem_cons, List.mem_singleton, List.not_mem_nil,
        or_false] at hi
      rcases hi with hi | hi | hi | hi <;>
        (rw [hi]
         exact Nat.ne_of_gt (Nat.lt_of_le_of_lt hj2 (Nat.lt_add_of_pos_right (by decide))))
    · rw [h] at hb
      rcases List.mem_cons.mp hb with hb | hb
      · exact absurd (by rw [hb]) hbne
      · exact hdis b hb i hi j hj

/-- C9, amended: the original entry block is exempt from the rewrite.  For every function
`[Entry, ...]` in which no instruction of another block shares its address with an
instruction of the entry block, the rewrite loop of lines 46-61, started in the state
of line 43 and run over any list of blocks, leaves the entry block with exactly the
instructions it had, whether the loop completes or ends in a fault: none of its edges
is removed or redirected. -/
theorem rewriteLoop_keeps_entry (F : Function) (e : BasicBlock) (r : List BasicBlock)
    (h : F.blocks = e :: r)
    (hdis : ∀ b ∈ r, ∀ i ∈ b.insts, ∀ j ∈ e.insts, i.ref ≠ j.ref) (bbs : List Ref) :
    ∃ st L, afterSetup F = some (st, L) ∧ L.EntryBlock = e.ref ∧
      (endState (rewriteLoop L bbs st)).F.block? e.ref = some e ∧
      ((endState (rewriteLoop L bbs st)).F.block? e.ref).map BasicBlock.edges = some e.edges := by
  have hk := entryKept_rewriteLoop _ e bbs _ (entryKept_afterSetup F e r h hdis)
  refine ⟨_, _, afterSetup_eq F e r h, rfl, hk.1, ?_⟩
  rw [hk.1]; rfl

theorem rewriteLoop_keeps_entry_witness :
    F3.blocks = [⟨10, [⟨11, .other 0⟩, ⟨12, .condBr 11 20 30⟩]⟩,
        ⟨20, [⟨21, .other 1⟩, ⟨22, .br 30⟩]⟩, ⟨30, [⟨31, .other 2⟩, ⟨32, .ret⟩]⟩] ∧
      ∃ st L, afterSetup F3 = some (st, L) ∧ L.EntryBlock = 10 ∧
        (endState (rewriteLoop L [10, 20, 30] st)).F.block? 10 =
          some ⟨10, [⟨11, .other 0⟩, ⟨12, .condBr 11 20 30⟩]⟩ ∧
        ((endState (rewriteLoop L [10, 20, 30] st)).F.block? 10).map BasicBlock.edges =
          some [20, 30] :=
  ⟨rfl,
    rewriteLoop_keeps_entry F3 ⟨10, [⟨11, .other 0⟩, ⟨12, .condBr 11 20 30⟩]⟩
      [⟨20, [⟨21, .other 1⟩, ⟨22, .br 30⟩]⟩, ⟨30, [⟨31, .other 2⟩, ⟨32, .ret⟩]⟩] rfl
      (by decide) [10, 20, 30]⟩

/-! ## The state store of the rewrite -/

end CFF
